import Mathlib

/-!
Verification of the UV-workspace dependency-cascade engine of this repository.

The TypeScript sources are shallowly embedded: text is modelled as `List Char`,
TOML documents as structured records (manifest parsing/serialisation is an
external collaborator, so updaters are modelled on the parsed document
structure), and fallible operations return `Except`/explicit warning lists.
Definitions follow the source files:
  * `src/updaters/python/uv-workspace-toml.ts` (classes UvWorkspaceToml, UvLock)
  * `src/strategies/uv-workspace.ts` (class UvWorkspace, strategy variant)
  * the workspace plugin variant of UvWorkspace (buildAllPackages, buildGraph,
    bumpVersion) and its WorkspacePlugin cascade core (the latter is not part
    of the provided sources and is modelled from the specification).
-/

namespace RPUv

/-- Text is modelled as a list of characters. -/
abbrev Str := List Char

/-- Character class of the source regexes `[a-zA-Z0-9_-]` used to extract a
package name from a dependency specifier. -/
def isIdentChar (c : Char) : Bool :=
  c.isAlphanum || c == '_' || c == '-'

/-- Embeds the JavaScript `String.prototype.includes` test for a (non-regex)
needle: Boolean substring containment, by direct recursion. -/
def subStr (needle : Str) : Str → Bool
  | [] => needle.isEmpty
  | c :: t => needle.isPrefixOf (c :: t) || subStr needle t

/-- The token `==` of an exact-pin dependency specifier. -/
def eqTok : Str := ['=', '=']

/-- The token `>=` of a lower-bound dependency specifier. -/
def geTok : Str := ['>', '=']

/-- The leading identifier run of a dependency specifier: capture group 1 of
the source regex `^([a-zA-Z0-9_-]+)(.*)`; empty when the regex does not match. -/
def extractName (dep : Str) : Str := dep.takeWhile isIdentChar

/-- Capture group 2 of the source regex `^([a-zA-Z0-9_-]+)(.*)`: the rest of
the specifier after the name.  In a JavaScript regex `.` does not match line
terminators, so the captured rest stops at the first newline or carriage
return (well-formed specifiers contain none). -/
def specPart (dep : Str) : Str :=
  (dep.dropWhile isIdentChar).takeWhile (fun c => !(c == '\n' || c == '\r'))

namespace UvWorkspaceToml

/-- Embeds `UvWorkspaceToml.updateDependencyString`
(src/updaters/python/uv-workspace-toml.ts lines 144-173).  The
`if (!this.versionsMap) return dependency` guard of the source is handled at
the call sites (`updateContent` passes the map only when it is set).  A
`VersionsMap` is an association list from package name to the rendered new
version. -/
def updateDependencyString (vm : List (Str × Str)) (dep : Str) : Str :=
  let name := extractName dep
  if name.isEmpty then dep
  else
    match List.lookup name vm with
    | none => dep
    | some v =>
      let spec := specPart dep
      if subStr eqTok spec then name ++ eqTok ++ v
      else if subStr geTok spec then name ++ geTok ++ v
      else if spec.any (· == '^') then name ++ ['^'] ++ v
      else if spec.any (· == '~') then name ++ ['~'] ++ v
      else if spec.all (·.isWhitespace) then name ++ eqTok ++ v
      else name ++ eqTok ++ v

end UvWorkspaceToml

/-- Well-formedness of a rendered version string: the release-please `Version`
renders as dot-separated numeric components (the strategy constructs the
VersionsMap from `Version` values), so every character is a digit or a dot. -/
def versionChars (v : Str) : Bool := v.all (fun c => c.isDigit || c == '.')

/-- A parsed pyproject.toml document, as far as `UvWorkspaceToml` reads it
(interface UvWorkspaceTomlContent, src/updaters/python/uv-workspace-toml.ts
lines 21-37).  TOML parsing/serialisation is an external collaborator; the
updater is modelled on the structured document.  `projectName` is carried for
claims that mention the package's own name; the updater never reads it. -/
structure PyDoc where
  projectName : Option Str
  projectVersion : Option Str
  dependencies : Option (List Str)
  dependencyGroups : Option (List (Str × List Str))
deriving DecidableEq

/-- Truthiness of `parsed.project?.version` in the source guard (an empty
string is falsy in JavaScript). -/
def hasProjectVersion (d : PyDoc) : Bool :=
  match d.projectVersion with
  | some w => !w.isEmpty
  | none => false

namespace UvWorkspaceToml

/-- Embeds `UvWorkspaceToml.updateContent`
(src/updaters/python/uv-workspace-toml.ts lines 52-85): rewrite the
project version field whenever it is present (regardless of the VersionsMap),
then, when a VersionsMap was supplied, rewrite each dependency string of
`dependency-groups` and of `project.dependencies`. -/
def updateContent (ver : Str) (vm : Option (List (Str × Str))) (d : PyDoc) : PyDoc :=
  let d1 := if hasProjectVersion d then { d with projectVersion := some ver } else d
  let d2 := match vm, d1.dependencyGroups with
    | some m, some gs =>
        { d1 with dependencyGroups := some (gs.map (fun (g : Str × List Str) => (g.1, g.2.map (updateDependencyString m)))) }
    | _, _ => d1
  match vm, d2.dependencies with
  | some m, some ds => { d2 with dependencies := some (ds.map (updateDependencyString m)) }
  | _, _ => d2

/-- The dependency entries of a list that an `updateContent` pass actually
changes (the source applies a `replaceTomlValue` edit only when
`updatedDep !== dep`). -/
def changedDeps (m : List (Str × Str)) (ds : List Str) : List Str :=
  (ds.filter (fun dep => !(updateDependencyString m dep == dep))).map
    (updateDependencyString m)

/-- The mutation instructions an `updateContent` pass emits on a document:
one entry for the project version field when it is present and differs from
the target, and one entry per dependency string the pass changes.  (An edit
that writes a field's current value back is the idempotent no-op the spec
allows to be dropped.) -/
def changeList (ver : Str) (vm : Option (List (Str × Str))) (d : PyDoc) : List Str :=
  (if hasProjectVersion d && !(d.projectVersion == some ver) then [ver] else []) ++
  (match vm, d.dependencyGroups with
   | some m, some gs => (gs.map (fun g => changedDeps m g.2)).flatten
   | _, _ => []) ++
  (match vm, d.dependencies with
   | some m, some ds => changedDeps m ds
   | _, _ => [])

end UvWorkspaceToml

/-- One `[[package]]` entry of a uv.lock document (interface UvLockPackage,
src/updaters/python/uv-workspace-toml.ts lines 195-204).  Fields other than
name and version are opaque and carried untouched. -/
structure LockPkg where
  name : Str
  version : Str
  extra : List (Str × Str)
deriving DecidableEq

/-- A parsed uv.lock document with a package array; document-level fields the
updater does not touch are carried opaquely in `meta`. -/
structure LockDoc where
  meta : List (Str × Str)
  packages : List LockPkg
deriving DecidableEq

/-- The three parse outcomes `UvLock.updateContent` distinguishes: text that
is not valid TOML, a TOML document without a package array, and a document
with one.  TOML parsing is an external collaborator (`parseWith`), so the
outcome is the model's input. -/
inductive LockInput where
  | unparsable : LockInput
  | noPackageList : LockInput
  | doc : LockDoc → LockInput
deriving DecidableEq

/-- The warnings `UvLock.updateContent` can log (all non-fatal). -/
inductive LockWarn where
  | invalidToml : LockWarn
  | noPackages : LockWarn
  | editFailed : Str → LockWarn
  | noneMatched : LockWarn
deriving DecidableEq

namespace UvLock

/-- Per-entry pass of the `data.package.forEach` loop
(src/updaters/python/uv-workspace-toml.ts lines 247-268), carrying the entry
index.  `editFails` is the oracle for the external `replaceTomlValue` edit
throwing on an entry (the source catches the throw, warns, and keeps the
entry unchanged). -/
def updatePkgs (vm : List (Str × Str)) (editFails : Nat → Bool) :
    Nat → List LockPkg → List LockPkg
  | _, [] => []
  | i, p :: t =>
    (match List.lookup p.name vm with
     | some v => if editFails i then p else { p with version := v }
     | none => p) :: updatePkgs vm editFails (i + 1) t

/-- The edit-failure warnings of the forEach loop, in entry order. -/
def editWarns (vm : List (Str × Str)) (editFails : Nat → Bool) :
    Nat → List LockPkg → List LockWarn
  | _, [] => []
  | i, p :: t =>
    (match List.lookup p.name vm with
     | some _ => if editFails i then [LockWarn.editFailed p.name] else []
     | none => []) ++ editWarns vm editFails (i + 1) t

/-- Whether some entry was successfully modified (`modified` flag of the
source). -/
def anyModified (vm : List (Str × Str)) (editFails : Nat → Bool) :
    Nat → List LockPkg → Bool
  | _, [] => false
  | i, p :: t =>
    (match List.lookup p.name vm with
     | some _ => !editFails i
     | none => false) || anyModified vm editFails (i + 1) t

/-- Embeds `UvLock.updateContent`
(src/updaters/python/uv-workspace-toml.ts lines 229-275): on a parse failure
or a missing package array the input content is returned unchanged with one
warning; otherwise each entry whose name is a key of the VersionsMap has its
version field set (entries whose external edit throws are kept unchanged with
a warning), and when nothing was modified a final warning is logged.  The
function is total: every branch returns the (possibly updated) content and a
warning list, never an error. -/
def updateContent (vm : List (Str × Str)) (editFails : Nat → Bool) :
    LockInput → LockInput × List LockWarn
  | LockInput.unparsable => (LockInput.unparsable, [LockWarn.invalidToml])
  | LockInput.noPackageList => (LockInput.noPackageList, [LockWarn.noPackages])
  | LockInput.doc d =>
    (LockInput.doc { d with packages := updatePkgs vm editFails 0 d.packages },
     editWarns vm editFails 0 d.packages ++
       (if anyModified vm editFails 0 d.packages then [] else [LockWarn.noneMatched]))

end UvLock

/-- Discovery data of one workspace package as the plugin's `buildGraph` reads
it (interface UvPackageInfo plus the manifest sections
`project.dependencies`, `project.optional-dependencies` and
`dependency-groups`).  An absent section and an empty one behave alike in the
source (nothing is appended), so sections are plain lists. -/
structure UvPkgInfo where
  name : Str
  dependencies : List Str
  optionalDependencies : List (Str × List Str)
  dependencyGroups : List (Str × List Str)
deriving DecidableEq

/-- Embeds the plugin's `extractPackageName` (regex `^([a-zA-Z0-9_-]+)`,
returning the whole specifier when the regex does not match). -/
def extractPackageName (dep : Str) : Str :=
  let n := dep.takeWhile isIdentChar
  if n.isEmpty then dep else n

/-- All declared dependency specifiers of a package, in the order
`UvWorkspace.buildGraph` collects them: `project.dependencies`, then every
`optional-dependencies` group, then every `dependency-groups` group. -/
def collectDeps (p : UvPkgInfo) : List Str :=
  p.dependencies ++ (p.optionalDependencies.map Prod.snd).flatten ++
    ((p.dependencyGroups.map Prod.snd).flatten)

/-- The `workspaceDeps` computation of `UvWorkspace.buildGraph`: extracted
names filtered to the workspace package-name set.  The source keeps the
result as an array — duplicates are not collapsed and self references are not
removed. -/
def workspaceDeps (names : List Str) (p : UvPkgInfo) : List Str :=
  ((collectDeps p).map extractPackageName).filter (fun d => names.contains d)

/-- Embeds the plugin's `UvWorkspace.buildGraph`: one node per package,
carrying its workspace dependency list.  The source stores nodes in a `Map`
keyed by name (a duplicate name overwrites), modelled as the association list
of nodes in package order. -/
def buildGraph (pkgs : List UvPkgInfo) : List (Str × List Str) :=
  pkgs.map (fun p => (p.name, workspaceDeps (pkgs.map (fun q => q.name)) p))

/-- A TOML value in a version position: a string, or some other (truthy)
value.  (A falsy non-string such as `0` would take the missing-version branch
in the source; it is not distinguished here.) -/
inductive TomlVersionValue where
  | vstr : Str → TomlVersionValue
  | vother : TomlVersionValue
deriving DecidableEq

/-- A member manifest as the plugin's `buildAllPackages` reads it:
`pname` is the result of `project.name || tool.poetry.name` (`none` when that
chain is falsy) and `pversion` the result of
`project.version || tool.poetry.version` (an empty string is falsy in the
source's `!version` test and is treated as missing). -/
structure MemberManifest where
  pname : Option Str
  pversion : Option TomlVersionValue
deriving DecidableEq

/-- The two ConfigurationError outcomes of the plugin's `buildAllPackages`,
each carrying the offending manifest path. -/
inductive BuildPkgError where
  | missingVersion : Str → BuildPkgError
  | invalidVersion : Str → BuildPkgError
deriving DecidableEq

/-- A successfully discovered package (path, name, version). -/
structure BuiltPkg where
  path : Str
  name : Str
  version : Str
deriving DecidableEq

/-- Whether a member entry makes `buildAllPackages` fail: it has a truthy
name and its version is missing, falsy, or not a string. -/
def namedBadVersion (pm : Str × MemberManifest) : Bool :=
  (match pm.2.pname with
   | some nm => !nm.isEmpty
   | none => false) &&
  (match pm.2.pversion with
   | none => true
   | some (TomlVersionValue.vstr v) => v.isEmpty
   | some TomlVersionValue.vother => true)

/-- Embeds the plugin's `UvWorkspace.buildAllPackages` loop over discovered
member manifests (keyed here by manifest path): a manifest with a falsy name
is skipped with a warning; a truthy name with a missing/falsy version raises
`missingVersion`, a non-string version raises `invalidVersion`; otherwise the
package is collected.  The source performs no duplicate-name check. -/
def buildAllPackages : List (Str × MemberManifest) → Except BuildPkgError (List BuiltPkg)
  | [] => Except.ok []
  | (path, m) :: rest =>
    match m.pname with
    | none => buildAllPackages rest
    | some nm =>
      if nm.isEmpty then buildAllPackages rest
      else
        match m.pversion with
        | none => Except.error (BuildPkgError.missingVersion path)
        | some (TomlVersionValue.vstr v) =>
          if v.isEmpty then Except.error (BuildPkgError.missingVersion path)
          else
            match buildAllPackages rest with
            | Except.ok l => Except.ok (⟨path, nm, v⟩ :: l)
            | Except.error e => Except.error e
        | some TomlVersionValue.vother => Except.error (BuildPkgError.invalidVersion path)

/-- The outcome the repository-access collaborator reports for one manifest
fetch: contents (kept opaque), a distinguishable not-found outcome, or a
transport failure. -/
inductive FetchResult where
  | ok : Str → FetchResult
  | notFound : FetchResult
  | transportError : Str → FetchResult
deriving DecidableEq

/-- Whether a fetch outcome carries contents. -/
def fetchOk : FetchResult → Bool
  | FetchResult.ok _ => true
  | _ => false

/-- The errors the strategy's member-manifest pass could surface: the
missing-manifest error (member path, expected manifest path) it throws, and a
propagated transport failure — representable here to state that the source
never produces it. -/
inductive MemberError where
  | manifestMissing : Str → Str → MemberError
  | transport : Str → MemberError
deriving DecidableEq

/-- The expected manifest location of a workspace member. -/
def manifestPathOf (memberPath : Str) : Str := memberPath ++ "/pyproject.toml".data

/-- Embeds the strategy's `getContent`
(src/strategies/uv-workspace.ts lines 210-219): the `try`/`catch (e) { return
null }` turns every fetch failure — not-found and transport alike — into
`none`. -/
def getContent (fetch : Str → FetchResult) (path : Str) : Option Str :=
  match fetch path with
  | FetchResult.ok m => some m
  | FetchResult.notFound => none
  | FetchResult.transportError _ => none

/-- Embeds the strategy's `parseMemberManifests`
(src/strategies/uv-workspace.ts lines 160-176) over already-expanded member
paths: the first member whose manifest `getContent` cannot produce makes the
run throw an error naming the expected manifest path (the source throws a
plain `Error`, not the ConfigurationError class); otherwise all parsed member
manifests are collected in order. -/
def parseMemberManifests (fetch : Str → FetchResult) :
    List Str → Except MemberError (List (Str × Str))
  | [] => Except.ok []
  | mp :: rest =>
    match getContent fetch (manifestPathOf mp) with
    | none => Except.error (MemberError.manifestMissing mp (manifestPathOf mp))
    | some m =>
      match parseMemberManifests fetch rest with
      | Except.ok l => Except.ok ((mp, m) :: l)
      | Except.error e => Except.error e

/-- A parsed semantic version (major, minor, patch). -/
structure VersionT where
  major : Nat
  minor : Nat
  patch : Nat
deriving DecidableEq

/-- The default bump policy: the smallest forward-compatible increment, a
patch-level bump, as the plugin's `bumpVersion` performs through
`PatchVersionUpdate` on the package's own current version. -/
def patchBump (v : VersionT) : VersionT := ⟨v.major, v.minor, v.patch + 1⟩

/-- A node of the cascade dependency graph: package name, its current
version, and the names its declared dependencies extract to (the graph
builder retains only workspace names). -/
structure CNode where
  name : Str
  version : VersionT
  deps : List Str
deriving DecidableEq

/-- The cascade graph: one node per package. -/
abbrev CGraph := List CNode

/-- Modelled from the spec: one pass of the membership fixed-point iteration
of the Cascade Computer (WorkspacePlugin core, not among the provided
sources).  A package not yet present is added when it has an outgoing
dependency edge to some package already present. -/
def closureStep (g : CGraph) (cur : List Str) : List Str :=
  cur ++ (g.filter (fun n => !cur.contains n.name && n.deps.any (fun d => cur.contains d))).map
    (fun n => n.name)

/-- Modelled from the spec: the membership iteration, run for a fixed number
of full passes (enough passes always reach the fixed point, because each
productive pass adds a node). -/
def closureIter (g : CGraph) : Nat → List Str → List Str
  | 0, cur => cur
  | k + 1, cur => closureIter g k (closureStep g cur)

/-- Modelled from the spec: the set of packages touched by the release — the
seed plus every package with a (transitive) dependency edge into it,
obtained by iterating `closureStep` for `|graph.nodes|` passes. -/
def closureOf (g : CGraph) (seedNames : List Str) : List Str :=
  closureIter g g.length seedNames

/-- The declared workspace dependencies of a named package (empty for a name
with no node, e.g. a seed entry outside the graph). -/
def nodeDeps (g : CGraph) (x : Str) : List Str :=
  match g.find? (fun n => n.name == x) with
  | some n => n.deps
  | none => []

/-- The current version of a named package. -/
def nodeVersion (g : CGraph) (p : Str) : VersionT :=
  match g.find? (fun n => n.name == p) with
  | some n => n.version
  | none => ⟨0, 0, 0⟩

/-- Modelled from the spec: one resolution pass of the cycle policy.  A
closure member resolves when every closure member it depends on has already
resolved; a member of a dependency cycle is forever waiting on another
member of the same cycle. -/
def resolveStep (g : CGraph) (M R : List Str) : List Str :=
  R ++ M.filter (fun m =>
    !R.contains m && ((nodeDeps g m).filter (fun d => M.contains d)).all (fun d => R.contains d))

/-- Modelled from the spec: the resolution iteration of the cycle policy. -/
def resolveIter (g : CGraph) (M : List Str) : Nat → List Str → List Str
  | 0, R => R
  | k + 1, R => resolveIter g M k (resolveStep g M R)

/-- The ConfigurationError of the cycle policy, naming the packages that were
still unresolved when the pass budget ran out. -/
structure CascadeError where
  unresolved : List Str
deriving DecidableEq

/-- Modelled from the spec: the Cascade Computer `computeClosure` of the
WorkspacePlugin core (not among the provided sources).  Seed entries keep
their caller-decided versions; every other closure member gets
`bumpPolicy(currentVersion)`; packages outside the closure are absent from
the result; if the resolution iteration does not cover the closure within
the pass budget (a dependency cycle), the computation fails with a
ConfigurationError naming the unresolved members. -/
def computeClosure (g : CGraph) (seed : List (Str × VersionT))
    (bump : VersionT → VersionT) : Except CascadeError (List (Str × VersionT)) :=
  let seedNames := seed.map Prod.fst
  let M := closureOf g seedNames
  let R := resolveIter g M (g.length + seedNames.length) []
  if M.all (fun m => R.contains m) then
    Except.ok (M.map (fun p => (p,
      match List.lookup p seed with
      | some v => v
      | none => bump (nodeVersion g p))))
  else
    Except.error ⟨M.filter (fun m => !R.contains m)⟩

/-- A non-empty set of closure members every one of which depends on another
member of the same set: the spec's description of a dependency cycle that
prevents the resolution iteration from converging (every genuine dependency
cycle inside the closure is such a set). -/
def StuckSet (g : CGraph) (M : List Str) (c : List Str) : Prop :=
  c ≠ [] ∧ ∀ x ∈ c, x ∈ M ∧ ∃ y ∈ c, y ∈ nodeDeps g x

end RPUv

-- sanity examples (concrete behaviour of the embedding)
example :
    RPUv.UvWorkspaceToml.updateDependencyString
      [("pkg".data, "2.0.0".data)] "pkg>=1.0.0".data = "pkg>=2.0.0".data := by
  decide

example :
    RPUv.UvWorkspaceToml.updateDependencyString
      [("pkg".data, "2.0.0".data)] "pkg~=1.0.0".data = "pkg~2.0.0".data := by
  decide

example :
    RPUv.UvWorkspaceToml.updateDependencyString
      [("pkg".data, "2.0.0".data)] "pkg".data = "pkg==2.0.0".data := by
  decide

example :
    RPUv.UvWorkspaceToml.updateDependencyString
      [("pkg".data, "2.0.0".data)] "pkg[extra]==1.0".data = "pkg==2.0.0".data := by
  decide

example :
    RPUv.UvWorkspaceToml.updateDependencyString
      [("pkg".data, "2.0.0".data)] "other>=1.0".data = "other>=1.0".data := by
  decide

namespace RPUv

open UvWorkspaceToml

/-- Generic association-list fact: a successful lookup result is a member. -/
theorem mem_of_lookup {α β : Type} [BEq α] [LawfulBEq α] {l : List (α × β)} {k : α} {v : β}
    (h : List.lookup k l = some v) : (k, v) ∈ l := by
  induction l with
  | nil => simp [List.lookup] at h
  | cons p t ih =>
    rcases p with ⟨a, b⟩
    rw [List.lookup] at h
    split at h
    · rename_i heq
      have hbv : b = v := by simpa using h
      subst hbv
      have hak : k = a := by simpa using heq
      subst hak
      exact List.mem_cons_self _ _
    · rename_i heq
      exact List.mem_cons_of_mem _ (ih h)

/-- takeWhile keeps a list all of whose elements satisfy the predicate. -/
theorem takeWhile_of_all {α : Type} {p : α → Bool} :
    ∀ {l : List α}, (∀ c ∈ l, p c = true) → l.takeWhile p = l := by
  intro l
  induction l with
  | nil => intro; rfl
  | cons c t ih =>
    intro h
    have hc : p c = true := h c (List.mem_cons_self _ _)
    simp [List.takeWhile, hc, ih fun x hx => h x (List.mem_cons_of_mem _ hx)]

/-- takeWhile and dropWhile split an append at the first failing element. -/
theorem takeWhile_append_stop {α : Type} {p : α → Bool} :
    ∀ (name rest : List α), (∀ c ∈ name, p c = true) →
    (∀ c, rest.head? = some c → p c = false) →
    (name ++ rest).takeWhile p = name ∧ (name ++ rest).dropWhile p = rest := by
  intro name rest h1 h2
  induction name with
  | nil =>
    cases rest with
    | nil => exact ⟨rfl, rfl⟩
    | cons c t =>
      have hc : p c = false := h2 c rfl
      simp [List.takeWhile, List.dropWhile, hc]
  | cons a n ih =>
    have ha : p a = true := h1 a (List.mem_cons_self _ _)
    have ih' := ih fun x hx => h1 x (List.mem_cons_of_mem _ hx)
    simp [List.takeWhile, List.dropWhile, ha, ih'.1, ih'.2]

/-- A two-element needle whose second element occurs nowhere in the haystack is
not a substring. -/
theorem subStr_pair_false {a b : Char} :
    ∀ {l : Str}, (∀ c ∈ l, (c == b) = false) → subStr [a, b] l = false := by
  intro l
  induction l with
  | nil => intro; rfl
  | cons c t ih =>
    intro h
    have ht : ∀ x ∈ t, (x == b) = false := fun x hx => h x (List.mem_cons_of_mem _ hx)
    rw [subStr]
    cases t with
    | nil => simp [List.isPrefixOf, subStr, List.isEmpty]
    | cons y t' =>
      have hy : (y == b) = false := h y (by simp)
      have hy' : (b == y) = false := by
        cases hby : b == y
        · rfl
        · have : b = y := by simpa using hby
          subst this
          simp at hy
      simp [List.isPrefixOf, hy', ih ht]

/-- Characters of a rendered version are digits or dots, hence distinct from
any character that is neither. -/
theorem versionChar_ne {c x : Char} (h : (c.isDigit || c == '.') = true)
    (hx : x.isDigit = false) (hx2 : (x == '.') = false) : (c == x) = false := by
  cases hcx : c == x
  · rfl
  · exfalso
    have : c = x := by simpa using hcx
    subst this
    rw [hx, hx2] at h
    simp at h

/-- Boolean equality tests are symmetric in their falsity. -/
theorem beq_symm_false {α : Type} [BEq α] [LawfulBEq α] {a b : α}
    (h : (a == b) = false) : (b == a) = false := by
  cases hba : b == a
  · rfl
  · have : b = a := by simpa using hba
    subst this
    simp at h

/-- Every character of a well-formed version string is a digit or a dot. -/
theorem versionChars_mem {v : Str} (hv : versionChars v = true) {c : Char} (hc : c ∈ v) :
    (c.isDigit || c == '.') = true :=
  List.all_eq_true.mp hv c hc

/-- subStr finds a needle that stands at the front of the haystack. -/
theorem subStr_self_front (tok v : Str) (h : tok.isPrefixOf (tok ++ v) = true) :
    subStr tok (tok ++ v) = true := by
  cases htok : tok ++ v with
  | nil => rw [htok] at h; cases tok <;> simp_all [subStr, List.isEmpty, List.isPrefixOf]
  | cons c t => rw [htok] at h; simp [subStr, h]

/-- The exact-pin token is not a substring of a lower-bound rewrite. -/
theorem subStr_eq_of_ge_false {v : Str} (hv : versionChars v = true) :
    subStr eqTok (geTok ++ v) = false := by
  have hvne : ∀ c ∈ v, (c == '=') = false := fun c hc =>
    versionChar_ne (versionChars_mem hv hc) (by decide) (by decide)
  have h1 : List.isPrefixOf ['='] v = false := by
    cases v with
    | nil => rfl
    | cons c t =>
      have := beq_symm_false (hvne c (List.mem_cons_self _ _))
      simp [List.isPrefixOf, this]
  show subStr eqTok ('>' :: '=' :: v) = false
  rw [subStr, subStr]
  simp [eqTok, List.isPrefixOf, h1, subStr_pair_false hvne]

/-- Neither double-equal token is a substring of a caret or tilde rewrite. -/
theorem subStr_snd_eq_false {a x : Char} {v : Str} (hv : versionChars v = true)
    (hx : (x == '=') = false) : subStr [a, '='] (x :: v) = false := by
  have hvne : ∀ c ∈ v, (c == '=') = false := fun c hc =>
    versionChar_ne (versionChars_mem hv hc) (by decide) (by decide)
  refine subStr_pair_false ?_
  intro c hc
  rcases List.mem_cons.mp hc with rfl | hc
  · exact hx
  · exact hvne c hc

/-- A character test fails on a caret/tilde rewrite when it fails on the head
and cannot hold on version characters. -/
theorem any_char_false {x ch : Char} {v : Str} (hv : versionChars v = true)
    (hx : (x == ch) = false) (hd : ch.isDigit = false) (hdot : (ch == '.') = false) :
    (x :: v).any (· == ch) = false := by
  rw [List.any_cons, hx]
  simp only [Bool.false_or]
  rw [← Bool.not_eq_true, List.any_eq_true]
  rintro ⟨c, hc, hcc⟩
  have := versionChar_ne (versionChars_mem hv hc) hd hdot
  rw [this] at hcc
  cases hcc

/-- A string of the shape `name ++ op ++ version` produced by
`updateDependencyString` is a fixed point of `updateDependencyString`. -/
theorem updateDependencyString_fixed (m : List (Str × Str)) (name v op : Str)
    (hn : ∀ c ∈ name, isIdentChar c = true) (hn0 : name ≠ [])
    (hl : List.lookup name m = some v) (hv : versionChars v = true)
    (hop : op = eqTok ∨ op = geTok ∨ op = ['^'] ∨ op = ['~']) :
    updateDependencyString m (name ++ op ++ v) = name ++ op ++ v := by
  have hstop : ∀ c, (op ++ v).head? = some c → isIdentChar c = false := by
    rcases hop with rfl | rfl | rfl | rfl <;>
      · intro c hc
        simp [eqTok, geTok] at hc
        subst hc
        decide
  have hsplit := takeWhile_append_stop name (op ++ v) hn hstop
  have hname : extractName (name ++ op ++ v) = name := by
    rw [List.append_assoc]; exact hsplit.1
  have hspec : specPart (name ++ op ++ v) = op ++ v := by
    unfold specPart
    rw [List.append_assoc, hsplit.2]
    refine takeWhile_of_all ?_
    intro c hc
    rcases List.mem_append.mp hc with hco | hcv
    · rcases hop with rfl | rfl | rfl | rfl <;> simp [eqTok, geTok] at hco <;>
        first
          | (subst hco; decide)
          | (rcases hco with rfl | rfl <;> decide)
    · have h3 : (c == '\n') = false := by
        exact versionChar_ne (versionChars_mem hv hcv) (by decide) (by decide)
      have h4 : (c == '\r') = false := by
        exact versionChar_ne (versionChars_mem hv hcv) (by decide) (by decide)
      simp [h3, h4]
  have hne : name.isEmpty = false := by
    cases name with
    | nil => exact absurd rfl hn0
    | cons a t => rfl
  rcases hop with rfl | rfl | rfl | rfl
  · have h1 : subStr eqTok (eqTok ++ v) = true := subStr_self_front _ _ (by simp [eqTok, List.isPrefixOf])
    simp only [updateDependencyString, hname, hne, hl, hspec, h1,
      Bool.false_eq_true, if_true, if_false]
  · have h1 : subStr eqTok (geTok ++ v) = false := subStr_eq_of_ge_false hv
    have h2 : subStr geTok (geTok ++ v) = true := subStr_self_front _ _ (by simp [geTok, List.isPrefixOf])
    simp only [updateDependencyString, hname, hne, hl, hspec, h1, h2,
      Bool.false_eq_true, if_true, if_false]
  · have h1 : subStr eqTok ('^' :: v) = false := subStr_snd_eq_false hv (by decide)
    have h2 : subStr geTok ('^' :: v) = false := subStr_snd_eq_false hv (by decide)
    have h3 : (('^' :: v).any (· == '^')) = true := by simp [List.any_cons]
    simp only [updateDependencyString, hname, hne, hl, hspec]
    simp only [show (['^'] : Str) ++ v = '^' :: v from rfl, h1, h2, h3,
      Bool.false_eq_true, if_true, if_false]
  · have h1 : subStr eqTok ('~' :: v) = false := subStr_snd_eq_false hv (by decide)
    have h2 : subStr geTok ('~' :: v) = false := subStr_snd_eq_false hv (by decide)
    have h3 : (('~' :: v).any (· == '^')) = false :=
      any_char_false hv (by decide) (by decide) (by decide)
    have h4 : (('~' :: v).any (· == '~')) = true := by simp [List.any_cons]
    simp only [updateDependencyString, hname, hne, hl, hspec]
    simp only [show (['~'] : Str) ++ v = '~' :: v from rfl, h1, h2, h3, h4,
      Bool.false_eq_true, if_true, if_false]

/-- Rewriting a dependency specifier is idempotent when the VersionsMap
carries well-formed rendered versions. -/
theorem updateDependencyString_idem (m : List (Str × Str))
    (hwf : ∀ p ∈ m, versionChars p.2 = true) (dep : Str) :
    updateDependencyString m (updateDependencyString m dep)
      = updateDependencyString m dep := by
  by_cases hne : (extractName dep).isEmpty = true
  · have heq : updateDependencyString m dep = dep := by
      unfold updateDependencyString
      simp [hne]
    rw [heq, heq]
  · have hne' : (extractName dep).isEmpty = false := by
      cases h : (extractName dep).isEmpty
      · rfl
      · exact absurd h hne
    cases hlk : List.lookup (extractName dep) m with
    | none =>
      have heq : updateDependencyString m dep = dep := by
        unfold updateDependencyString
        simp [hne', hlk]
      rw [heq, heq]
    | some v =>
      have hv : versionChars v = true := hwf _ (mem_of_lookup hlk)
      have hn : ∀ c ∈ extractName dep, isIdentChar c = true := fun c hc =>
        List.mem_takeWhile_imp hc
      have hn0 : extractName dep ≠ [] := by
        intro h
        rw [h] at hne'
        simp [List.isEmpty] at hne'
      have hfix := updateDependencyString_fixed m (extractName dep) v
      by_cases h1 : subStr eqTok (specPart dep) = true
      · have heq : updateDependencyString m dep = extractName dep ++ eqTok ++ v := by
          unfold updateDependencyString
          simp [hne', hlk, h1]
        rw [heq]
        exact hfix eqTok hn hn0 hlk hv (Or.inl rfl)
      · by_cases h2 : subStr geTok (specPart dep) = true
        · have heq : updateDependencyString m dep = extractName dep ++ geTok ++ v := by
            unfold updateDependencyString
            simp [hne', hlk, h1, h2]
          rw [heq]
          exact hfix geTok hn hn0 hlk hv (Or.inr (Or.inl rfl))
        · by_cases h3 : (specPart dep).any (· == '^') = true
          · have heq : updateDependencyString m dep = extractName dep ++ ['^'] ++ v := by
              unfold updateDependencyString
              simp [hne', hlk, h1, h2, h3]
            rw [heq]
            exact hfix ['^'] hn hn0 hlk hv (Or.inr (Or.inr (Or.inl rfl)))
          · by_cases h4 : (specPart dep).any (· == '~') = true
            · have heq : updateDependencyString m dep = extractName dep ++ ['~'] ++ v := by
                unfold updateDependencyString
                simp [hne', hlk, h1, h2, h3, h4]
              rw [heq]
              exact hfix ['~'] hn hn0 hlk hv (Or.inr (Or.inr (Or.inr rfl)))
            · have heq : updateDependencyString m dep = extractName dep ++ eqTok ++ v := by
                unfold updateDependencyString
                simp [hne', hlk, h1, h2, h3, h4]
              rw [heq]
              exact hfix eqTok hn hn0 hlk hv (Or.inl rfl)

/-- Evaluation of `updateContent` on the components of a document. -/
theorem updateContent_eval (ver : Str) (m : List (Str × Str)) (n pv : Option Str)
    (dep : Option (List Str)) (gs : Option (List (Str × List Str))) :
    updateContent ver (some m) ⟨n, pv, dep, gs⟩ =
      ⟨n, (if hasProjectVersion ⟨n, pv, dep, gs⟩ then some ver else pv),
        dep.map (List.map (updateDependencyString m)),
        gs.map (List.map (fun (g : Str × List Str) =>
          (g.1, g.2.map (updateDependencyString m))))⟩ := by
  cases dep <;> cases gs <;> cases pv <;>
    first
      | rfl
      | (rename_i w
         by_cases hw : w.isEmpty = true <;> simp [updateContent, hasProjectVersion, hw])

/-- The project-version rewrite step, on the field alone. -/
theorem hasProjectVersion_mk (n pv : Option Str) (dep : Option (List Str))
    (gs : Option (List (Str × List Str))) (n' : Option Str) (dep' : Option (List Str))
    (gs' : Option (List (Str × List Str))) :
    hasProjectVersion ⟨n, pv, dep, gs⟩ = hasProjectVersion ⟨n', pv, dep', gs'⟩ := rfl

/-- Rewriting the project-version field twice equals rewriting it once. -/
theorem pv_step_idem (ver : Str) (n pv : Option Str) (dep dep' : Option (List Str))
    (gs gs' : Option (List (Str × List Str))) :
    (if hasProjectVersion ⟨n, (if hasProjectVersion ⟨n, pv, dep, gs⟩ then some ver else pv),
        dep', gs'⟩ then some ver
     else (if hasProjectVersion ⟨n, pv, dep, gs⟩ then some ver else pv))
      = (if hasProjectVersion ⟨n, pv, dep, gs⟩ then some ver else pv) := by
  cases pv with
  | none => simp [hasProjectVersion]
  | some w =>
    by_cases hw : w.isEmpty
    · simp [hasProjectVersion, hw]
    · by_cases hv : ver.isEmpty
      · simp [hasProjectVersion, hw, hv]
      · simp [hasProjectVersion, hw, hv]

/-- The second pass over an already-rewritten project-version field emits no
instruction. -/
theorem pv_step_nochange (ver : Str) (n pv : Option Str) (dep dep' : Option (List Str))
    (gs gs' : Option (List (Str × List Str))) :
    (hasProjectVersion ⟨n, (if hasProjectVersion ⟨n, pv, dep, gs⟩ then some ver else pv),
        dep', gs'⟩ &&
      !((if hasProjectVersion ⟨n, pv, dep, gs⟩ then some ver else pv) == some ver)) = false := by
  cases pv with
  | none => simp [hasProjectVersion]
  | some w =>
    by_cases hw : w.isEmpty
    · simp [hasProjectVersion, hw]
    · simp [hasProjectVersion, hw]

/-- A dependency list rewritten once yields no change entries on a second pass. -/
theorem changedDeps_after (m : List (Str × Str)) (hwf : ∀ p ∈ m, versionChars p.2 = true)
    (ds : List Str) :
    changedDeps m (ds.map (updateDependencyString m)) = [] := by
  unfold changedDeps
  have h : ∀ dep ∈ ds.map (updateDependencyString m),
      (!(updateDependencyString m dep == dep)) = false := by
    intro dep hdep
    rcases List.mem_map.mp hdep with ⟨x, _, rfl⟩
    simp [updateDependencyString_idem m hwf x]
  rw [List.filter_congr h]
  simp

/-- C7: synthesis is idempotent.  For every parsed manifest document and fixed
VersionsMap (whose values are rendered versions), applying
`UvWorkspaceToml.updateContent` and re-running it on the updated document
produces no further change, and the second pass emits an empty instruction
list (`changeList`). -/
theorem C7_synthesis_idempotence (ver : Str) (m : List (Str × Str)) (d : PyDoc)
    (hwf : ∀ p ∈ m, versionChars p.2 = true) :
    updateContent ver (some m) (updateContent ver (some m) d)
      = updateContent ver (some m) d ∧
    changeList ver (some m) (updateContent ver (some m) d) = [] := by
  obtain ⟨n, pv, dep, gs⟩ := d
  rw [updateContent_eval, updateContent_eval]
  constructor
  · simp only [PyDoc.mk.injEq]
    refine ⟨trivial, ?_, ?_, ?_⟩
    · exact pv_step_idem ver n pv dep _ gs _
    · cases dep with
      | none => rfl
      | some ds =>
        simp only [Option.map, List.map_map]
        refine congrArg some (List.map_congr_left ?_)
        intro x _
        exact updateDependencyString_idem m hwf x
    · cases gs with
      | none => rfl
      | some gl =>
        simp only [Option.map, List.map_map]
        refine congrArg some (List.map_congr_left ?_)
        intro g _
        simp only [Function.comp]
        refine congrArg _ ?_
        rw [List.map_map]
        refine List.map_congr_left ?_
        intro x _
        exact updateDependencyString_idem m hwf x
  · unfold changeList
    rw [pv_step_nochange]
    simp only [Bool.false_eq_true, if_false, List.nil_append]
    have hgs : (match (some m : Option (List (Str × Str))),
        (gs.map (List.map (fun (g : Str × List Str) =>
          (g.1, g.2.map (updateDependencyString m))))) with
      | some m, some gs => (gs.map (fun g => changedDeps m g.2)).flatten
      | _, _ => ([] : List Str)) = [] := by
      cases gs with
      | none => rfl
      | some gl =>
        simp only [Option.map, List.map_map]
        rw [List.flatten_eq_nil_iff]
        intro l hl
        rcases List.mem_map.mp hl with ⟨g, _, rfl⟩
        simp only [Function.comp]
        exact changedDeps_after m hwf g.2
    rw [hgs]
    simp only [List.nil_append]
    cases dep with
    | none => rfl
    | some ds =>
      simp only [Option.map]
      exact changedDeps_after m hwf ds

/-- A specifier whose extracted name is not a key of the map is returned
unchanged. -/
theorem updateDependencyString_of_lookup_none (m : List (Str × Str)) (dep : Str)
    (h : List.lookup (extractName dep) m = none) :
    updateDependencyString m dep = dep := by
  unfold updateDependencyString
  by_cases hne : (extractName dep).isEmpty = true
  · simp [hne]
  · have hne' : (extractName dep).isEmpty = false := by
      cases h' : (extractName dep).isEmpty
      · rfl
      · exact absurd h' hne
    simp [hne', h]

/-- A dependency list none of whose entries is rewritten yields no change
entries. -/
theorem changedDeps_none (m : List (Str × Str)) (ds : List Str)
    (h : ∀ x ∈ ds, updateDependencyString m x = x) :
    changedDeps m ds = [] := by
  unfold changedDeps
  have h' : ∀ x ∈ ds, (!(updateDependencyString m x == x)) = false := by
    intro x hx
    simp [h x hx]
  rw [List.filter_congr h']
  simp

/-- C9 corrected: a document with no (non-empty) project version field and
none of whose dependency specifiers (in `project.dependencies` or in any
dependency group) extracts to a key of the VersionsMap is left completely
unchanged and yields an empty instruction list; but a document with a
project version field always has it rewritten to the updater's version,
even when the package's own name is not a key of the VersionsMap (the
source rewrites `project.version` unconditionally). -/
theorem C9_frame_without_version_field (ver : Str) (m : List (Str × Str)) (d : PyDoc) :
    (hasProjectVersion d = false →
      (∀ dep ∈ d.dependencies.getD [] ++ ((d.dependencyGroups.getD []).map Prod.snd).flatten,
        List.lookup (extractName dep) m = none) →
      (updateContent ver (some m) d = d ∧ changeList ver (some m) d = [])) ∧
    (hasProjectVersion d = true →
      (updateContent ver (some m) d).projectVersion = some ver) := by
  obtain ⟨n, pv, dep, gs⟩ := d
  constructor
  · intro hpv hdeps
    have hdep1 : ∀ x ∈ dep.getD [], updateDependencyString m x = x := by
      intro x hx
      exact updateDependencyString_of_lookup_none m x
        (hdeps x (List.mem_append.mpr (Or.inl hx)))
    have hdep2 : ∀ g ∈ gs.getD [], ∀ x ∈ (g : Str × List Str).2,
        updateDependencyString m x = x := by
      intro g hg x hx
      refine updateDependencyString_of_lookup_none m x (hdeps x ?_)
      refine List.mem_append.mpr (Or.inr ?_)
      rw [List.mem_flatten]
      exact ⟨g.2, List.mem_map.mpr ⟨g, hg, rfl⟩, hx⟩
    constructor
    · rw [updateContent_eval]
      simp only [hpv, Bool.false_eq_true, if_false, PyDoc.mk.injEq]
      refine ⟨trivial, trivial, ?_, ?_⟩
      · cases dep with
        | none => rfl
        | some ds =>
          simp only [Option.map]
          refine congrArg some ?_
          have h' : List.map (updateDependencyString m) ds = List.map id ds :=
            List.map_congr_left fun x hx => hdep1 x (by simpa using hx)
          rw [h', List.map_id]
      · cases gs with
        | none => rfl
        | some gl =>
          simp only [Option.map]
          refine congrArg some ?_
          have : ∀ g ∈ gl, (fun (g : Str × List Str) =>
              (g.1, g.2.map (updateDependencyString m))) g = id g := by
            intro g hg
            have := List.map_congr_left fun x hx => hdep2 g (by simpa using hg) x hx
            simp [this, List.map_id]
          rw [List.map_congr_left this]
          simp
    · unfold changeList
      simp only [hpv, Bool.false_and, Bool.false_eq_true, if_false, List.nil_append]
      have hg' : (match (some m : Option (List (Str × Str))), gs with
        | some m, some gs => (gs.map (fun g => changedDeps m g.2)).flatten
        | _, _ => ([] : List Str)) = [] := by
        cases gs with
        | none => rfl
        | some gl =>
          rw [List.flatten_eq_nil_iff]
          intro l hl
          rcases List.mem_map.mp hl with ⟨g, hg, rfl⟩
          exact changedDeps_none m g.2 (hdep2 g (by simpa using hg))
      rw [hg']
      simp only [List.nil_append]
      cases dep with
      | none => rfl
      | some ds => exact changedDeps_none m ds (fun x hx => hdep1 x (by simpa using hx))
  · intro hpv
    rw [updateContent_eval]
    simp [hpv]

/-- C9 witness: a versionless manifest whose single dependency names a
package outside the VersionsMap is untouched. -/
theorem C9_frame_without_version_field_witness :
    updateContent "2.0.0".data (some [("pkg".data, "2.0.0".data)])
        ⟨some "cli".data, none, some ["ext>=1.0".data], none⟩
      = ⟨some "cli".data, none, some ["ext>=1.0".data], none⟩ ∧
    changeList "2.0.0".data (some [("pkg".data, "2.0.0".data)])
        ⟨some "cli".data, none, some ["ext>=1.0".data], none⟩ = [] :=
  (C9_frame_without_version_field "2.0.0".data [("pkg".data, "2.0.0".data)]
    ⟨some "cli".data, none, some ["ext>=1.0".data], none⟩).1 (by decide) (by decide)

/-- C9 counterexample: a package whose own name is not a key of the
VersionsMap and which has no dependency on any key still has its manifest
changed — the project version field is rewritten to the updater's version. -/
theorem C9_counterexample :
    (List.lookup "foo".data [(("bar".data : Str), "9.9.9".data)] = none) ∧
    (updateContent "2.0.0".data (some [("bar".data, "9.9.9".data)])
        ⟨some "foo".data, some "1.0.0".data, some [], some []⟩
      ≠ ⟨some "foo".data, some "1.0.0".data, some [], some []⟩) := by
  decide

/-- Pointwise behaviour of the forEach loop of `UvLock.updateContent`. -/
theorem updatePkgs_getElem (vm : List (Str × Str)) (ef : Nat → Bool) :
    ∀ (ps : List LockPkg) (k i : Nat) (p : LockPkg), ps[i]? = some p →
      (UvLock.updatePkgs vm ef k ps)[i]? = some
        (match List.lookup p.name vm with
         | some v => if ef (k + i) then p else { p with version := v }
         | none => p) := by
  intro ps
  induction ps with
  | nil => intro k i p h; simp at h
  | cons q t ih =>
    intro k i p h
    cases i with
    | zero =>
      simp at h
      subst h
      simp [UvLock.updatePkgs]
    | succ j =>
      simp at h
      have h2 := ih (k + 1) j p (by simpa using h)
      rw [UvLock.updatePkgs, List.getElem?_cons_succ]
      rw [show k + 1 + j = k + (j + 1) by omega] at h2
      exact h2

/-- The forEach loop preserves the number of entries. -/
theorem updatePkgs_length (vm : List (Str × Str)) (ef : Nat → Bool) :
    ∀ (ps : List LockPkg) (k : Nat), (UvLock.updatePkgs vm ef k ps).length = ps.length := by
  intro ps
  induction ps with
  | nil => intro k; rfl
  | cons q t ih => intro k; simp [UvLock.updatePkgs, ih]

/-- A failed edit of a matching entry is logged. -/
theorem editWarns_mem (vm : List (Str × Str)) (ef : Nat → Bool) :
    ∀ (ps : List LockPkg) (k i : Nat) (p : LockPkg) (v : Str), ps[i]? = some p →
      List.lookup p.name vm = some v → ef (k + i) = true →
      LockWarn.editFailed p.name ∈ UvLock.editWarns vm ef k ps := by
  intro ps
  induction ps with
  | nil => intro k i p v h; simp at h
  | cons q t ih =>
    intro k i p v h hlk hef
    cases i with
    | zero =>
      simp at h
      subst h
      rw [UvLock.editWarns]
      refine List.mem_append.mpr (Or.inl ?_)
      rw [hlk]
      rw [show k + 0 = k from rfl] at hef
      simp [hef]
    | succ j =>
      rw [UvLock.editWarns]
      refine List.mem_append.mpr (Or.inr ?_)
      refine ih (k + 1) j p v (by simpa using h) hlk ?_
      rw [show k + 1 + j = k + (j + 1) by omega]
      exact hef

/-- With no edit failures the forEach loop is a pointwise map. -/
theorem updatePkgs_noFail (vm : List (Str × Str)) :
    ∀ (ps : List LockPkg) (k : Nat), UvLock.updatePkgs vm (fun _ => false) k ps
      = ps.map (fun p => match List.lookup p.name vm with
        | some v => { p with version := v }
        | none => p) := by
  intro ps
  induction ps with
  | nil => intro k; rfl
  | cons q t ih =>
    intro k
    rw [UvLock.updatePkgs, List.map_cons, ih]
    cases List.lookup q.name vm <;> simp

/-- With no edit failures no edit warnings are logged. -/
theorem editWarns_noFail (vm : List (Str × Str)) :
    ∀ (ps : List LockPkg) (k : Nat), UvLock.editWarns vm (fun _ => false) k ps = [] := by
  intro ps
  induction ps with
  | nil => intro k; rfl
  | cons q t ih =>
    intro k
    rw [UvLock.editWarns, ih]
    cases List.lookup q.name vm <;> rfl

/-- With no edit failures, `modified` holds exactly when some entry matches. -/
theorem anyModified_noFail (vm : List (Str × Str)) :
    ∀ (ps : List LockPkg) (k : Nat), UvLock.anyModified vm (fun _ => false) k ps
      = ps.any (fun p => (List.lookup p.name vm).isSome) := by
  intro ps
  induction ps with
  | nil => intro k; rfl
  | cons q t ih =>
    intro k
    rw [UvLock.anyModified, List.any_cons, ih]
    cases List.lookup q.name vm <;> rfl

/-- C3: updating a shared lock document changes exactly the version field of
each entry whose name is a key of the VersionsMap (all other entry fields and
all document-level fields are preserved); every entry whose name is not a key
is left untouched; and when no entry at all matches, the operation emits one
non-fatal warning and returns the document unchanged, with no error (when at
least one entry matches, no warning at all is emitted). -/
theorem C3_lock_update (vm : List (Str × Str)) (d : LockDoc) :
    (∃ d', (UvLock.updateContent vm (fun _ => false) (LockInput.doc d)).1 = LockInput.doc d' ∧
      d'.meta = d.meta ∧ d'.packages.length = d.packages.length ∧
      ∀ (i : Nat) (p : LockPkg), d.packages[i]? = some p →
        (List.lookup p.name vm = none → d'.packages[i]? = some p) ∧
        (∀ v, List.lookup p.name vm = some v →
          d'.packages[i]? = some { p with version := v })) ∧
    ((∀ p ∈ d.packages, List.lookup p.name vm = none) →
      UvLock.updateContent vm (fun _ => false) (LockInput.doc d)
        = (LockInput.doc d, [LockWarn.noneMatched])) ∧
    ((∃ p ∈ d.packages, (List.lookup p.name vm).isSome = true) →
      (UvLock.updateContent vm (fun _ => false) (LockInput.doc d)).2 = []) := by
  refine ⟨⟨{ d with packages := UvLock.updatePkgs vm (fun _ => false) 0 d.packages }, ?_⟩, ?_, ?_⟩
  · refine ⟨rfl, rfl, updatePkgs_length vm _ d.packages 0, ?_⟩
    intro i p hp
    have h := updatePkgs_getElem vm (fun _ => false) d.packages 0 i p hp
    constructor
    · intro hnone
      rw [hnone] at h
      exact h
    · intro v hv
      rw [hv] at h
      simpa using h
  · intro hnone
    have hpk : UvLock.updatePkgs vm (fun _ => false) 0 d.packages = d.packages := by
      rw [updatePkgs_noFail]
      have : ∀ p ∈ d.packages, (fun (p : LockPkg) => match List.lookup p.name vm with
          | some v => { p with version := v }
          | none => p) p = id p := by
        intro p hp
        simp [hnone p hp]
      rw [List.map_congr_left this, List.map_id]
    have hmod : UvLock.anyModified vm (fun _ => false) 0 d.packages = false := by
      rw [anyModified_noFail, List.any_eq_false]
      intro p hp
      simp [hnone p hp]
    rw [UvLock.updateContent, hpk, hmod, editWarns_noFail]
    rfl
  · rintro ⟨p, hp, hsome⟩
    have hmod : UvLock.anyModified vm (fun _ => false) 0 d.packages = true := by
      rw [anyModified_noFail, List.any_eq_true]
      exact ⟨p, hp, hsome⟩
    rw [UvLock.updateContent, hmod, editWarns_noFail]
    rfl

/-- C3 witness: a lock document whose entries do not match the VersionsMap is
returned unchanged with one warning. -/
theorem C3_lock_update_witness :
    UvLock.updateContent [(("core".data : Str), "1.1.0".data)] (fun _ => false)
        (LockInput.doc ⟨[("version".data, "1".data)],
          [⟨"cli".data, "1.0.0".data, []⟩, ⟨"util".data, "1.0.0".data, []⟩]⟩)
      = (LockInput.doc ⟨[("version".data, "1".data)],
          [⟨"cli".data, "1.0.0".data, []⟩, ⟨"util".data, "1.0.0".data, []⟩]⟩,
        [LockWarn.noneMatched]) :=
  (C3_lock_update [(("core".data : Str), "1.1.0".data)]
    ⟨[("version".data, "1".data)],
      [⟨"cli".data, "1.0.0".data, []⟩, ⟨"util".data, "1.0.0".data, []⟩]⟩).2.1 (by decide)

/-- C10: the lock-file updater is total and atomic on error.  It is a total
function (it never throws): unparsable input and input without a package
array are returned unchanged with a single warning; an entry whose external
in-place edit fails (or whose name is not a key) is kept unchanged — with an
`editFailed` warning for a failed matching entry — while the other matching
entries are still updated. -/
theorem C10_lock_total_on_error (vm : List (Str × Str)) (ef : Nat → Bool) :
    UvLock.updateContent vm ef LockInput.unparsable
      = (LockInput.unparsable, [LockWarn.invalidToml]) ∧
    UvLock.updateContent vm ef LockInput.noPackageList
      = (LockInput.noPackageList, [LockWarn.noPackages]) ∧
    (∀ d : LockDoc, ∃ d',
      (UvLock.updateContent vm ef (LockInput.doc d)).1 = LockInput.doc d' ∧
      d'.meta = d.meta ∧ d'.packages.length = d.packages.length ∧
      ∀ (i : Nat) (p : LockPkg), d.packages[i]? = some p →
        ((List.lookup p.name vm = none ∨ ef i = true) → d'.packages[i]? = some p) ∧
        (∀ v, List.lookup p.name vm = some v → ef i = false →
          d'.packages[i]? = some { p with version := v })) ∧
    (∀ (d : LockDoc) (i : Nat) (p : LockPkg) (v : Str), d.packages[i]? = some p →
      List.lookup p.name vm = some v → ef i = true →
      LockWarn.editFailed p.name ∈ (UvLock.updateContent vm ef (LockInput.doc d)).2) := by
  refine ⟨rfl, rfl, ?_, ?_⟩
  · intro d
    refine ⟨{ d with packages := UvLock.updatePkgs vm ef 0 d.packages }, rfl, rfl,
      updatePkgs_length vm ef d.packages 0, ?_⟩
    intro i p hp
    have h := updatePkgs_getElem vm ef d.packages 0 i p hp
    rw [show (0 : Nat) + i = i by omega] at h
    constructor
    · rintro (hnone | hef)
      · rw [hnone] at h
        exact h
      · rw [hef] at h
        cases hlk : List.lookup p.name vm <;> rw [hlk] at h <;> simpa using h
    · intro v hv hef
      rw [hv, hef] at h
      simpa using h
  · intro d i p v hp hlk hef
    rw [UvLock.updateContent]
    refine List.mem_append.mpr (Or.inl ?_)
    refine editWarns_mem vm ef d.packages 0 i p v hp hlk ?_
    rw [show (0 : Nat) + i = i by omega]
    exact hef

/-- C10 witness: parse failure returns the content unchanged, and a failing
edit on a matching entry is kept unchanged while being logged. -/
theorem C10_lock_total_on_error_witness :
    UvLock.updateContent [(("core".data : Str), "1.1.0".data)] (fun i => i == 0)
        LockInput.unparsable
      = (LockInput.unparsable, [LockWarn.invalidToml]) ∧
    LockWarn.editFailed "core".data ∈
      (UvLock.updateContent [(("core".data : Str), "1.1.0".data)] (fun i => i == 0)
        (LockInput.doc ⟨[], [⟨"core".data, "1.0.0".data, []⟩]⟩)).2 :=
  ⟨(C10_lock_total_on_error [(("core".data : Str), "1.1.0".data)] (fun i => i == 0)).1,
   (C10_lock_total_on_error [(("core".data : Str), "1.1.0".data)] (fun i => i == 0)).2.2.2
     ⟨[], [⟨"core".data, "1.0.0".data, []⟩]⟩ 0 ⟨"core".data, "1.0.0".data, []⟩ "1.1.0".data
     (by decide) (by decide) (by decide)⟩

/-- C7 witness: a concrete document with a version field, a workspace
dependency and a dependency group. -/
theorem C7_synthesis_idempotence_witness :
    updateContent "2.0.0".data (some [("pkg".data, "2.0.0".data)])
        (updateContent "2.0.0".data (some [("pkg".data, "2.0.0".data)])
          ⟨some "cli".data, some "1.0.0".data, some ["pkg>=1.0.0".data, "ext~=3.1".data],
            some [("dev".data, ["pkg==1.0.0".data])]⟩)
      = updateContent "2.0.0".data (some [("pkg".data, "2.0.0".data)])
          ⟨some "cli".data, some "1.0.0".data, some ["pkg>=1.0.0".data, "ext~=3.1".data],
            some [("dev".data, ["pkg==1.0.0".data])]⟩ ∧
    changeList "2.0.0".data (some [("pkg".data, "2.0.0".data)])
        (updateContent "2.0.0".data (some [("pkg".data, "2.0.0".data)])
          ⟨some "cli".data, some "1.0.0".data, some ["pkg>=1.0.0".data, "ext~=3.1".data],
            some [("dev".data, ["pkg==1.0.0".data])]⟩) = [] :=
  C7_synthesis_idempotence "2.0.0".data [("pkg".data, "2.0.0".data)]
    ⟨some "cli".data, some "1.0.0".data, some ["pkg>=1.0.0".data, "ext~=3.1".data],
      some [("dev".data, ["pkg==1.0.0".data])]⟩
    (by decide)

end RPUv

namespace RPUv

/-- C2: for every dependency specifier whose extracted package name is a key of
the VersionsMap, rewriting preserves the operator style of the original
specifier — exact pin `==`, lower bound `>=`, caret `^`, tilde (`~` and `~=`
both rendered with the single-character tilde token) — carrying the new
version; a bare specifier (empty or all-whitespace constraint) and any
specifier with an unknown operator style are rewritten to an exact pin
`name==newVersion`.  The conditions are nested in the precedence order the
source tests them (`==` before `>=` before `^` before `~`). -/
theorem C2_specifier_operator_styles (vm : List (Str × Str)) (dep v : Str)
    (hname : extractName dep ≠ [])
    (hvm : List.lookup (extractName dep) vm = some v) :
    (subStr eqTok (specPart dep) = true →
      UvWorkspaceToml.updateDependencyString vm dep = extractName dep ++ eqTok ++ v) ∧
    (subStr eqTok (specPart dep) = false → subStr geTok (specPart dep) = true →
      UvWorkspaceToml.updateDependencyString vm dep = extractName dep ++ geTok ++ v) ∧
    (subStr eqTok (specPart dep) = false → subStr geTok (specPart dep) = false →
      (specPart dep).any (· == '^') = true →
      UvWorkspaceToml.updateDependencyString vm dep = extractName dep ++ ['^'] ++ v) ∧
    (subStr eqTok (specPart dep) = false → subStr geTok (specPart dep) = false →
      (specPart dep).any (· == '^') = false → (specPart dep).any (· == '~') = true →
      UvWorkspaceToml.updateDependencyString vm dep = extractName dep ++ ['~'] ++ v) ∧
    (subStr eqTok (specPart dep) = false → subStr geTok (specPart dep) = false →
      (specPart dep).any (· == '^') = false → (specPart dep).any (· == '~') = false →
      UvWorkspaceToml.updateDependencyString vm dep = extractName dep ++ eqTok ++ v) := by
  have hne : (extractName dep).isEmpty = false := by
    cases h : extractName dep with
    | nil => exact absurd h hname
    | cons a t => simp [List.isEmpty]
  refine ⟨?_, ?_, ?_, ?_, ?_⟩ <;>
    intros <;>
    · simp only [UvWorkspaceToml.updateDependencyString, hne, hvm,
        Bool.false_eq_true, if_false]
      simp [*]

/-- C2 witness: concrete instance with a lower-bound specifier. -/
theorem C2_specifier_operator_styles_witness :
    UvWorkspaceToml.updateDependencyString [("pkg".data, "2.0.0".data)] "pkg>=1.0.0".data
      = extractName "pkg>=1.0.0".data ++ geTok ++ "2.0.0".data :=
  (C2_specifier_operator_styles [("pkg".data, "2.0.0".data)] "pkg>=1.0.0".data "2.0.0".data
    (by decide) (by decide)).2.1 (by decide) (by decide)

/-- Boolean list membership agrees with propositional membership. -/
theorem contains_iff_mem {a : Str} {l : List Str} : l.contains a = true ↔ a ∈ l := by
  simp [List.contains, List.elem_iff]

/-- C8 corrected: every edge the graph builder retains points to a package of
the same discovery set, and an edge is retained exactly when some declared
specifier extracts to a workspace package name (external dependencies are
silently dropped — they simply do not appear, no error value exists);
self-edges and duplicate edges, however, are not filtered (see the
counterexample). -/
theorem C8_graph_edge_invariants (pkgs : List UvPkgInfo) :
    (∀ e ∈ buildGraph pkgs, ∀ d ∈ e.2, d ∈ pkgs.map (fun q => q.name)) ∧
    (∀ (p : UvPkgInfo) (d : Str),
      d ∈ workspaceDeps (pkgs.map (fun q => q.name)) p ↔
        (d ∈ pkgs.map (fun q => q.name) ∧ ∃ raw ∈ collectDeps p, extractPackageName raw = d)) ∧
    (∀ p ∈ pkgs, (p.name, workspaceDeps (pkgs.map (fun q => q.name)) p) ∈ buildGraph pkgs) := by
  have hchar : ∀ (p : UvPkgInfo) (d : Str),
      d ∈ workspaceDeps (pkgs.map (fun q => q.name)) p ↔
        (d ∈ pkgs.map (fun q => q.name) ∧ ∃ raw ∈ collectDeps p, extractPackageName raw = d) := by
    intro p d
    unfold workspaceDeps
    rw [List.mem_filter]
    constructor
    · rintro ⟨hmem, hcont⟩
      rcases List.mem_map.mp hmem with ⟨raw, hraw, rfl⟩
      exact ⟨contains_iff_mem.mp hcont, raw, hraw, rfl⟩
    · rintro ⟨hname, raw, hraw, rfl⟩
      exact ⟨List.mem_map.mpr ⟨raw, hraw, rfl⟩, contains_iff_mem.mpr hname⟩
  refine ⟨?_, hchar, ?_⟩
  · intro e he d hd
    rcases List.mem_map.mp he with ⟨p, hp, rfl⟩
    exact ((hchar p d).mp hd).1
  · intro p hp
    exact List.mem_map.mpr ⟨p, hp, rfl⟩

/-- C8 witness: a retained edge of a concrete two-package workspace points
into the workspace name set. -/
theorem C8_graph_edge_invariants_witness :
    "b".data ∈ ([⟨"a".data, ["b>=1.0".data], [], []⟩,
      (⟨"b".data, [], [], []⟩ : UvPkgInfo)].map (fun q => q.name)) :=
  (C8_graph_edge_invariants [⟨"a".data, ["b>=1.0".data], [], []⟩, ⟨"b".data, [], [], []⟩]).1
    ("a".data, workspaceDeps ["a".data, "b".data] ⟨"a".data, ["b>=1.0".data], [], []⟩)
    (by decide) "b".data (by decide)

/-- C8 counterexample: a package `a` that lists itself and lists `b` both in
`project.dependencies` and in a dependency group gets the dependency list
`[a, b, b]` — a retained self-edge, and two edges for the ordered pair
(a, b) rather than one. -/
theorem C8_counterexample :
    buildGraph [⟨"a".data, ["a>=1.0".data, "b>=1.0".data], [], [("dev".data, ["b==1.0".data])]⟩,
        ⟨"b".data, [], [], []⟩]
      = [("a".data, ["a".data, "b".data, "b".data]), ("b".data, [])] ∧
    "a".data ∈ ["a".data, "b".data, "b".data] ∧
    List.count "b".data ["a".data, "b".data, "b".data] = 2 := by
  decide

/-- C4 corrected: the plugin's package discovery fails exactly when some
member manifest with a (truthy) name has a missing, falsy or non-string
version, and the resulting ConfigurationError carries the offending manifest
path (of the first such member); two members declaring the same name are NOT
rejected, and a manifest without a name is skipped with a warning rather than
checked (see the counterexample). -/
theorem C4_build_packages_errors (ms : List (Str × MemberManifest)) :
    ((∃ e, buildAllPackages ms = Except.error e) ↔ ∃ pm ∈ ms, namedBadVersion pm = true) ∧
    (∀ (path : Str) (m : MemberManifest), ms.find? namedBadVersion = some (path, m) →
      (buildAllPackages ms = Except.error (BuildPkgError.missingVersion path) ∨
       buildAllPackages ms = Except.error (BuildPkgError.invalidVersion path))) := by
  induction ms with
  | nil =>
    constructor
    · constructor
      · rintro ⟨e, he⟩
        simp [buildAllPackages] at he
      · rintro ⟨pm, hpm, _⟩
        simp at hpm
    · intro path m h
      simp [List.find?] at h
  | cons pm rest ih =>
    rcases pm with ⟨path0, m0⟩
    by_cases hbad : namedBadVersion (path0, m0) = true
    · have herr : buildAllPackages ((path0, m0) :: rest)
          = Except.error (BuildPkgError.missingVersion path0) ∨
          buildAllPackages ((path0, m0) :: rest)
          = Except.error (BuildPkgError.invalidVersion path0) := by
        unfold namedBadVersion at hbad
        rw [Bool.and_eq_true] at hbad
        rcases hbad with ⟨hname, hver⟩
        rcases hm : m0.pname with _ | nm
        · rw [hm] at hname
          simp at hname
        · rw [hm] at hname
          simp at hname
          rcases hv : m0.pversion with _ | vv
          · left
            simp [buildAllPackages, hm, hname, hv]
          · rcases vv with v | _
            · left
              rw [hv] at hver
              simp at hver
              simp [buildAllPackages, hm, hname, hv, hver]
            · right
              simp [buildAllPackages, hm, hname, hv]
      constructor
      · constructor
        · intro _
          exact ⟨(path0, m0), List.mem_cons_self _ _, hbad⟩
        · intro _
          rcases herr with h | h
          · exact ⟨_, h⟩
          · exact ⟨_, h⟩
      · intro path m hfind
        rw [List.find?_cons_of_pos _ hbad] at hfind
        injection hfind with h1
        injection h1 with h2 h3
        subst h2
        subst h3
        exact herr
    · have hbad' : namedBadVersion (path0, m0) = false := by
        cases h' : namedBadVersion (path0, m0)
        · rfl
        · exact absurd h' hbad
      have hstep : buildAllPackages ((path0, m0) :: rest)
          = (match buildAllPackages rest with
             | Except.ok l =>
               (match m0.pname with
                | none => Except.ok l
                | some nm =>
                  if nm.isEmpty then Except.ok l
                  else match m0.pversion with
                    | some (TomlVersionValue.vstr v) => Except.ok (⟨path0, nm, v⟩ :: l)
                    | _ => Except.ok l)
             | Except.error e => Except.error e) := by
        simp only [namedBadVersion] at hbad'
        rcases hm : m0.pname with _ | nm
        · cases hr : buildAllPackages rest <;> simp [buildAllPackages, hm, hr]
        · cases hnm : nm.isEmpty with
          | true =>
            cases hr : buildAllPackages rest <;> simp [buildAllPackages, hm, hnm, hr]
          | false =>
            rcases hv : m0.pversion with _ | vv
            · rw [hm, hv] at hbad'
              simp [hnm] at hbad'
            · rcases vv with v | _
              · cases hve : v.isEmpty with
                | true =>
                  rw [hm, hv] at hbad'
                  simp [hnm, hve] at hbad'
                | false =>
                  cases hr : buildAllPackages rest <;>
                    simp [buildAllPackages, hm, hnm, hv, hve, hr]
              · rw [hm, hv] at hbad'
                simp [hnm] at hbad'
      constructor
      · constructor
        · rintro ⟨e, he⟩
          rw [hstep] at he
          have hres : ∃ e, buildAllPackages rest = Except.error e := by
            cases hr : buildAllPackages rest with
            | ok l =>
              rw [hr] at he
              rcases hm : m0.pname with _ | nm <;> rw [hm] at he
              · simp at he
              · by_cases hnm : nm.isEmpty = true
                · simp [hnm] at he
                · rcases hv : m0.pversion with _ | vv <;> rw [hv] at he
                  · simp [hnm] at he
                  · rcases vv with v | _ <;> simp [hnm] at he
            | error e' => exact ⟨e', rfl⟩
          rcases ih.1.mp hres with ⟨pm, hpm, hb⟩
          exact ⟨pm, List.mem_cons_of_mem _ hpm, hb⟩
        · rintro ⟨pm, hpm, hb⟩
          rcases List.mem_cons.mp hpm with rfl | hpm'
          · rw [hb] at hbad'
            cases hbad'
          · rcases ih.1.mpr ⟨pm, hpm', hb⟩ with ⟨e, he⟩
            rw [hstep, he]
            exact ⟨e, rfl⟩
      · intro path m hfind
        rw [List.find?_cons_of_neg _ (by simp [hbad'])] at hfind
        rcases ih.2 path m hfind with h | h <;> rw [hstep, h]
        · left
          rfl
        · right
          rfl

/-- C4 witness: a member manifest with a name but no version makes discovery
fail with a ConfigurationError carrying that manifest path. -/
theorem C4_build_packages_errors_witness :
    buildAllPackages [(("pkgs/a/pyproject.toml".data : Str),
        ⟨some "pkg-a".data, none⟩)]
      = Except.error (BuildPkgError.missingVersion "pkgs/a/pyproject.toml".data) ∨
    buildAllPackages [(("pkgs/a/pyproject.toml".data : Str),
        ⟨some "pkg-a".data, none⟩)]
      = Except.error (BuildPkgError.invalidVersion "pkgs/a/pyproject.toml".data) :=
  (C4_build_packages_errors [(("pkgs/a/pyproject.toml".data : Str),
    ⟨some "pkg-a".data, none⟩)]).2 "pkgs/a/pyproject.toml".data
    ⟨some "pkg-a".data, none⟩ (by decide)

/-- C4 counterexample: two discovered packages declaring the same name are
accepted without any error, and a manifest without a name (even with a
missing version) is skipped rather than rejected — contradicting the claim
that discovery fails exactly in those situations. -/
theorem C4_counterexample :
    buildAllPackages
        [("packages/a".data, ⟨some "dup".data, some (TomlVersionValue.vstr "1.0.0".data)⟩),
         ("packages/b".data, ⟨some "dup".data, some (TomlVersionValue.vstr "2.0.0".data)⟩)]
      = Except.ok [⟨"packages/a".data, "dup".data, "1.0.0".data⟩,
          ⟨"packages/b".data, "dup".data, "2.0.0".data⟩] ∧
    buildAllPackages [("packages/c".data, (⟨none, none⟩ : MemberManifest))]
      = Except.ok [] :=
  ⟨rfl, rfl⟩

/-- C5 corrected: the first declared member whose manifest fetch does not
yield contents — a "missing" result AND equally a transport failure, since
the strategy's `getContent` catches every exception and returns null — makes
the run fail with the missing-manifest error naming the expected manifest
path (thrown as a plain `Error`, not the ConfigurationError class); when
every fetch yields contents the run succeeds; and a transport failure is
never propagated. -/
theorem C5_member_manifest_errors (fetch : Str → FetchResult) (members : List Str) :
    (∀ mp : Str, members.find? (fun q => !fetchOk (fetch (manifestPathOf q))) = some mp →
      parseMemberManifests fetch members
        = Except.error (MemberError.manifestMissing mp (manifestPathOf mp))) ∧
    ((∀ mp ∈ members, fetchOk (fetch (manifestPathOf mp)) = true) →
      ∃ l, parseMemberManifests fetch members = Except.ok l) ∧
    (∀ msg : Str, parseMemberManifests fetch members
      ≠ Except.error (MemberError.transport msg)) := by
  induction members with
  | nil =>
    refine ⟨?_, fun _ => ⟨[], rfl⟩, ?_⟩
    · intro mp h
      simp [List.find?] at h
    · intro msg h
      simp [parseMemberManifests] at h
  | cons mp0 rest ih =>
    cases hf : fetch (manifestPathOf mp0) with
    | ok mc =>
      have hok : fetchOk (fetch (manifestPathOf mp0)) = true := by rw [hf]; rfl
      have hgc : getContent fetch (manifestPathOf mp0) = some mc := by
        unfold getContent
        rw [hf]
      refine ⟨?_, ?_, ?_⟩
      · intro mp hfind
        rw [List.find?_cons_of_neg _ (by simp [hok])] at hfind
        have hrec := ih.1 mp hfind
        simp only [parseMemberManifests, hgc, hrec]
      · intro hall
        rcases ih.2.1 (fun q hq => hall q (List.mem_cons_of_mem _ hq)) with ⟨l, hl⟩
        refine ⟨(mp0, mc) :: l, ?_⟩
        simp only [parseMemberManifests, hgc, hl]
      · intro msg h
        simp only [parseMemberManifests, hgc] at h
        cases hr : parseMemberManifests fetch rest with
        | ok l =>
          rw [hr] at h
          simp at h
        | error e =>
          rw [hr] at h
          simp only at h
          injection h with he
          exact ih.2.2 msg (by rw [hr, he])
    | notFound =>
      have hnot : fetchOk (fetch (manifestPathOf mp0)) = false := by rw [hf]; rfl
      have hgc : getContent fetch (manifestPathOf mp0) = none := by
        unfold getContent
        rw [hf]
      refine ⟨?_, ?_, ?_⟩
      · intro mp hfind
        rw [List.find?_cons_of_pos _ (by simp [hnot])] at hfind
        injection hfind with h1
        subst h1
        simp only [parseMemberManifests, hgc]
      · intro hall
        have := hall mp0 (List.mem_cons_self _ _)
        rw [hnot] at this
        cases this
      · intro msg h
        simp only [parseMemberManifests, hgc] at h
        injection h with he
        simp at he
    | transportError tmsg =>
      have hnot : fetchOk (fetch (manifestPathOf mp0)) = false := by rw [hf]; rfl
      have hgc : getContent fetch (manifestPathOf mp0) = none := by
        unfold getContent
        rw [hf]
      refine ⟨?_, ?_, ?_⟩
      · intro mp hfind
        rw [List.find?_cons_of_pos _ (by simp [hnot])] at hfind
        injection hfind with h1
        subst h1
        simp only [parseMemberManifests, hgc]
      · intro hall
        have := hall mp0 (List.mem_cons_self _ _)
        rw [hnot] at this
        cases this
      · intro msg h
        simp only [parseMemberManifests, hgc] at h
        injection h with he
        simp at he

/-- C5 witness: a member whose manifest fetch reports not-found fails the run
with the error naming the expected manifest path. -/
theorem C5_member_manifest_errors_witness :
    parseMemberManifests (fun _ => FetchResult.notFound) ["pkgs/a".data]
      = Except.error (MemberError.manifestMissing "pkgs/a".data
          (manifestPathOf "pkgs/a".data)) :=
  (C5_member_manifest_errors (fun _ => FetchResult.notFound) ["pkgs/a".data]).1
    "pkgs/a".data (by decide)

/-- C5 counterexample: a transport failure does not propagate unmodified —
the strategy's catch-all converts it into the missing-manifest error. -/
theorem C5_counterexample :
    parseMemberManifests (fun _ => FetchResult.transportError "ECONNRESET".data)
        ["pkgs/a".data]
      = Except.error (MemberError.manifestMissing "pkgs/a".data
          (manifestPathOf "pkgs/a".data)) ∧
    ∀ msg : Str, parseMemberManifests (fun _ => FetchResult.transportError "ECONNRESET".data)
        ["pkgs/a".data] ≠ Except.error (MemberError.transport msg) := by
  refine ⟨rfl, ?_⟩
  intro msg h
  have h0 : parseMemberManifests (fun _ => FetchResult.transportError "ECONNRESET".data)
      ["pkgs/a".data]
      = Except.error (MemberError.manifestMissing "pkgs/a".data
          (manifestPathOf "pkgs/a".data)) := rfl
  rw [h0] at h
  injection h with he
  simp at he

/-- Each membership pass only adds packages. -/
theorem closureStep_subset (g : CGraph) (cur : List Str) : cur ⊆ closureStep g cur :=
  List.subset_append_left _ _

/-- The membership iteration only adds packages. -/
theorem closureIter_subset (g : CGraph) :
    ∀ (k : Nat) (cur : List Str), cur ⊆ closureIter g k cur := by
  intro k
  induction k with
  | zero => intro cur x hx; exact hx
  | succ k ih =>
    intro cur x hx
    exact ih (closureStep g cur) (closureStep_subset g cur hx)

/-- A stable set stays fixed under further passes. -/
theorem closureIter_stable (g : CGraph) (cur : List Str)
    (h : closureStep g cur = cur) : ∀ k, closureIter g k cur = cur := by
  intro k
  induction k with
  | zero => rfl
  | succ k ih =>
    show closureIter g k (closureStep g cur) = cur
    rw [h]
    exact ih

/-- A productive membership pass strictly shrinks the set of node names not
yet present. -/
theorem closureStep_progress (g : CGraph) (cur : List Str)
    (h : closureStep g cur ≠ cur) :
    ((g.map fun n => n.name).toFinset \ (closureStep g cur).toFinset).card
      < ((g.map fun n => n.name).toFinset \ cur.toFinset).card := by
  have hadd : (g.filter (fun n => !cur.contains n.name &&
      n.deps.any (fun d => cur.contains d))).map (fun n => n.name) ≠ [] := by
    intro h0
    apply h
    unfold closureStep
    rw [h0, List.append_nil]
  rcases List.exists_mem_of_ne_nil _ hadd with ⟨q, hq⟩
  rcases List.mem_map.mp hq with ⟨n, hnf, rfl⟩
  rcases List.mem_filter.mp hnf with ⟨hng, hpred⟩
  rw [Bool.and_eq_true] at hpred
  have hnotcur : ¬ n.name ∈ cur := by
    intro hc
    rw [contains_iff_mem.mpr hc] at hpred
    rcases hpred with ⟨h1, _⟩
    simp at h1
  have hinstep : n.name ∈ closureStep g cur := by
    unfold closureStep
    exact List.mem_append.mpr (Or.inr hq)
  apply Finset.card_lt_card
  have hsub : ((g.map fun n => n.name).toFinset \ (closureStep g cur).toFinset)
      ⊆ ((g.map fun n => n.name).toFinset \ cur.toFinset) := by
    refine Finset.sdiff_subset_sdiff (fun x hx => hx) ?_
    intro x hx
    rw [List.mem_toFinset] at hx ⊢
    exact closureStep_subset g cur hx
  rw [Finset.ssubset_iff_of_subset hsub]
  refine ⟨n.name, ?_, ?_⟩
  · rw [Finset.mem_sdiff, List.mem_toFinset, List.mem_toFinset]
    exact ⟨List.mem_map.mpr ⟨n, hng, rfl⟩, hnotcur⟩
  · rw [Finset.mem_sdiff]
    rintro ⟨_, hns⟩
    exact hns (List.mem_toFinset.mpr hinstep)

/-- After enough passes the membership iteration reaches a fixed point. -/
theorem closure_saturate (g : CGraph) :
    ∀ (k : Nat) (cur : List Str),
      ((g.map fun n => n.name).toFinset \ cur.toFinset).card ≤ k →
      closureStep g (closureIter g k cur) = closureIter g k cur := by
  intro k
  induction k with
  | zero =>
    intro cur hc
    show closureStep g cur = cur
    rw [Nat.le_zero] at hc
    have hempty := Finset.card_eq_zero.mp hc
    have hsub : ∀ x ∈ (g.map fun n => n.name), x ∈ cur := by
      intro x hx
      by_contra hxc
      have hmem : x ∈ ((g.map fun n => n.name).toFinset \ cur.toFinset) :=
        Finset.mem_sdiff.mpr ⟨List.mem_toFinset.mpr hx, fun hc' =>
          hxc (List.mem_toFinset.mp hc')⟩
      rw [hempty] at hmem
      exact absurd hmem (Finset.not_mem_empty x)
    unfold closureStep
    have hfilter : g.filter (fun n => !cur.contains n.name &&
        n.deps.any (fun d => cur.contains d)) = [] := by
      rw [List.filter_eq_nil_iff]
      intro n hn
      have : n.name ∈ cur := hsub n.name (List.mem_map.mpr ⟨n, hn, rfl⟩)
      rw [Bool.and_eq_true]
      rintro ⟨h1, _⟩
      rw [contains_iff_mem.mpr this] at h1
      simp at h1
    rw [hfilter]
    simp
  | succ k ih =>
    intro cur hc
    by_cases hst : closureStep g cur = cur
    · have h1 : closureIter g (k + 1) cur = cur := by
        show closureIter g k (closureStep g cur) = cur
        rw [hst]
        exact closureIter_stable g cur hst k
      rw [h1]
      exact hst
    · have hlt := closureStep_progress g cur hst
      have hle : ((g.map fun n => n.name).toFinset \ (closureStep g cur).toFinset).card ≤ k :=
        Nat.lt_succ_iff.mp (lt_of_lt_of_le hlt hc)
      exact ih (closureStep g cur) hle

/-- The computed closure is a fixed point of the membership pass. -/
theorem closureOf_fixed (g : CGraph) (s : List Str) :
    closureStep g (closureOf g s) = closureOf g s := by
  apply closure_saturate
  calc ((g.map fun n => n.name).toFinset \ s.toFinset).card
      ≤ (g.map fun n => n.name).toFinset.card := Finset.card_le_card Finset.sdiff_subset
    _ ≤ (g.map fun n => n.name).length := List.toFinset_card_le _
    _ = g.length := List.length_map _ _

/-- Soundness of membership: every package of the iteration is a seed or a
graph node with a dependency edge into the iteration's result. -/
theorem closure_sound (g : CGraph) :
    ∀ (k : Nat) (cur : List Str) (q : Str), q ∈ closureIter g k cur →
      q ∈ cur ∨ ∃ n ∈ g, n.name = q ∧ ∃ d ∈ n.deps, d ∈ closureIter g k cur := by
  intro k
  induction k with
  | zero =>
    intro cur q hq
    exact Or.inl hq
  | succ k ih =>
    intro cur q hq
    rcases ih (closureStep g cur) q hq with h | ⟨n, hn, hname, d, hd, hdin⟩
    · rcases List.mem_append.mp h with h' | h'
      · exact Or.inl h'
      · rcases List.mem_map.mp h' with ⟨n, hnf, rfl⟩
        rcases List.mem_filter.mp hnf with ⟨hng, hpred⟩
        rw [Bool.and_eq_true] at hpred
        rcases hpred with ⟨_, hany⟩
        rw [List.any_eq_true] at hany
        rcases hany with ⟨d, hd, hdc⟩
        refine Or.inr ⟨n, hng, rfl, d, hd, ?_⟩
        have hdcur : d ∈ cur := contains_iff_mem.mp hdc
        exact closureIter_subset g (k + 1) cur hdcur
    · exact Or.inr ⟨n, hn, hname, d, hd, hdin⟩

/-- A key absent from an association list's key column looks up to nothing. -/
theorem lookup_eq_none {α β : Type} [BEq α] [LawfulBEq α] {l : List (α × β)} {k : α}
    (h : ¬ k ∈ l.map Prod.fst) : List.lookup k l = none := by
  induction l with
  | nil => rfl
  | cons p t ih =>
    rcases p with ⟨a, b⟩
    have h1 : (a == k) = false := by
      cases hak : a == k
      · rfl
      · exfalso
        have : a = k := by simpa using hak
        subst this
        exact h (List.mem_cons_self _ _)
    have h2 : (k == a) = false := beq_symm_false h1
    simp only [List.lookup, h1, h2]
    exact ih fun hm => h (List.mem_cons_of_mem _ hm)

/-- C1: for the cascade computation (modelled from the spec, the
WorkspacePlugin core is not among the provided sources), whenever the
computation succeeds, a package that is not in the seed appears in the
resulting VersionMap exactly when it is a graph node with an outgoing
dependency edge to some package already present in the result (the result is
dependency-closed, so this is equivalent to a transitive edge into the
seed); its assigned version is the bump policy applied to its own current
version (default: patch-level bump, the plugin's `bumpVersion`); every
package never reached this way is absent. -/
theorem C1_cascade_closure (g : CGraph) (seed : List (Str × VersionT))
    (bump : VersionT → VersionT) (vm : List (Str × VersionT))
    (hok : computeClosure g seed bump = Except.ok vm)
    (p : Str) (hp : ¬ p ∈ seed.map Prod.fst) :
    ((∃ v, (p, v) ∈ vm) ↔ ∃ n ∈ g, n.name = p ∧ ∃ d ∈ n.deps, ∃ w, (d, w) ∈ vm) ∧
    (∀ v, (p, v) ∈ vm → ∃ n ∈ g, n.name = p ∧ v = bump n.version) := by
  simp only [computeClosure] at hok
  split at hok
  case isFalse hall => simp at hok
  case isTrue hall =>
  injection hok with hvm
  have hmem : ∀ (q : Str) (v : VersionT), (q, v) ∈ vm ↔
      (q ∈ closureOf g (seed.map Prod.fst) ∧
        v = (match List.lookup q seed with
             | some w => w
             | none => bump (nodeVersion g q))) := by
    intro q v
    rw [← hvm, List.mem_map]
    constructor
    · rintro ⟨x, hx, hxe⟩
      injection hxe with he1 he2
      subst he1
      exact ⟨hx, he2.symm⟩
    · rintro ⟨hq, rfl⟩
      exact ⟨q, hq, rfl⟩
  constructor
  · constructor
    · rintro ⟨v, hv⟩
      have hpM : p ∈ closureOf g (seed.map Prod.fst) := ((hmem p v).mp hv).1
      rcases closure_sound g g.length (seed.map Prod.fst) p hpM with h | hnode
      · exact absurd h hp
      · rcases hnode with ⟨n, hn, hname, d, hd, hdM⟩
        exact ⟨n, hn, hname, d, hd,
          ⟨_, (hmem d _).mpr ⟨hdM, rfl⟩⟩⟩
    · rintro ⟨n, hn, hname, d, hd, w, hw⟩
      have hdM : d ∈ closureOf g (seed.map Prod.fst) := ((hmem d w).mp hw).1
      by_cases hpM : p ∈ closureOf g (seed.map Prod.fst)
      · exact ⟨_, (hmem p _).mpr ⟨hpM, rfl⟩⟩
      · have hpstep : p ∈ closureStep g (closureOf g (seed.map Prod.fst)) := by
          unfold closureStep
          refine List.mem_append.mpr (Or.inr ?_)
          refine List.mem_map.mpr ⟨n, ?_, hname⟩
          refine List.mem_filter.mpr ⟨hn, ?_⟩
          rw [Bool.and_eq_true]
          constructor
          · have hc : (closureOf g (seed.map Prod.fst)).contains n.name = false := by
              cases hc' : (closureOf g (seed.map Prod.fst)).contains n.name
              · rfl
              · exact absurd (contains_iff_mem.mp hc') (hname ▸ hpM)
            rw [hc]
            rfl
          · rw [List.any_eq_true]
            exact ⟨d, hd, contains_iff_mem.mpr hdM⟩
        rw [closureOf_fixed g (seed.map Prod.fst)] at hpstep
        exact ⟨_, (hmem p _).mpr ⟨hpstep, rfl⟩⟩
  · intro v hv
    rcases (hmem p v).mp hv with ⟨hpM, rfl⟩
    have hlk : List.lookup p seed = none := lookup_eq_none hp
    rcases closure_sound g g.length (seed.map Prod.fst) p hpM with h | hnode
    · exact absurd h hp
    · rcases hnode with ⟨n, hn, hname, _⟩
      have hfind : (g.find? (fun n => n.name == p)).isSome := by
        rw [List.find?_isSome]
        exact ⟨n, hn, by simp [hname]⟩
      cases hf : g.find? (fun n => n.name == p) with
      | none =>
        rw [hf] at hfind
        simp at hfind
      | some n0 =>
        have hn0g : n0 ∈ g := List.mem_of_find?_eq_some hf
        have hn0name : n0.name = p := by
          have := List.find?_some hf
          simpa using this
        refine ⟨n0, hn0g, hn0name, ?_⟩
        rw [hlk]
        show bump (nodeVersion g p) = bump n0.version
        unfold nodeVersion
        rw [hf]

/-- C1 witness: a two-package workspace where `b` depends on the seeded `a`;
`b` cascades in with a patch bump, entering the result because of its edge
onto `a`. -/
theorem C1_cascade_closure_witness :
    ((∃ v, (("b".data : Str), v)
        ∈ [(("a".data : Str), (⟨2, 0, 0⟩ : VersionT)), ("b".data, ⟨1, 0, 1⟩)]) ↔
      ∃ n ∈ [(⟨"a".data, ⟨1, 0, 0⟩, []⟩ : CNode), ⟨"b".data, ⟨1, 0, 0⟩, ["a".data]⟩],
        n.name = "b".data ∧ ∃ d ∈ n.deps, ∃ w,
          (d, w) ∈ [(("a".data : Str), (⟨2, 0, 0⟩ : VersionT)), ("b".data, ⟨1, 0, 1⟩)]) ∧
    (∀ v, (("b".data : Str), v)
        ∈ [(("a".data : Str), (⟨2, 0, 0⟩ : VersionT)), ("b".data, ⟨1, 0, 1⟩)] →
      ∃ n ∈ [(⟨"a".data, ⟨1, 0, 0⟩, []⟩ : CNode), ⟨"b".data, ⟨1, 0, 0⟩, ["a".data]⟩],
        n.name = "b".data ∧ v = patchBump n.version) :=
  C1_cascade_closure
    [⟨"a".data, ⟨1, 0, 0⟩, []⟩, ⟨"b".data, ⟨1, 0, 0⟩, ["a".data]⟩]
    [("a".data, ⟨2, 0, 0⟩)] patchBump
    [("a".data, ⟨2, 0, 0⟩), ("b".data, ⟨1, 0, 1⟩)]
    rfl "b".data (by decide)

/-- C6 corrected: when a non-empty set of packages inside the cascade closure
forms a dependency cycle (each member has an edge to another member — the
spec's non-convergence condition), the cascade computation fails with a
ConfigurationError whose named unresolved packages include every member of
the set; it neither loops nor silently returns.  A cycle disjoint from the
closure does not cause failure (see the counterexample). -/
theorem C6_cycle_in_closure_fails (g : CGraph) (seed : List (Str × VersionT))
    (bump : VersionT → VersionT) (c : List Str)
    (hstuck : StuckSet g (closureOf g (seed.map Prod.fst)) c) :
    ∃ e, computeClosure g seed bump = Except.error e ∧ ∀ x ∈ c, x ∈ e.unresolved := by
  obtain ⟨hcne, hc⟩ := hstuck
  have hnever : ∀ (k : Nat) (R0 : List Str), (∀ x ∈ c, ¬ x ∈ R0) →
      ∀ x ∈ c, ¬ x ∈ resolveIter g (closureOf g (seed.map Prod.fst)) k R0 := by
    intro k
    induction k with
    | zero => intro R0 h; exact h
    | succ k ih =>
      intro R0 h
      apply ih
      intro x hx hxin
      rcases List.mem_append.mp hxin with hR | hF
      · exact h x hx hR
      · rcases List.mem_filter.mp hF with ⟨hxM, hpred⟩
        rw [Bool.and_eq_true] at hpred
        rcases hpred with ⟨_, hall⟩
        rw [List.all_eq_true] at hall
        rcases hc x hx with ⟨_, y, hy, hydep⟩
        have hyM : y ∈ closureOf g (seed.map Prod.fst) := (hc y hy).1
        have hyfil : y ∈ (nodeDeps g x).filter
            (fun d => (closureOf g (seed.map Prod.fst)).contains d) :=
          List.mem_filter.mpr ⟨hydep, contains_iff_mem.mpr hyM⟩
        have hyR : y ∈ R0 := contains_iff_mem.mp (hall y hyfil)
        exact h y hy hyR
  rcases List.exists_mem_of_ne_nil c hcne with ⟨x0, hx0⟩
  have hx0M : x0 ∈ closureOf g (seed.map Prod.fst) := (hc x0 hx0).1
  have hx0R : ¬ x0 ∈ resolveIter g (closureOf g (seed.map Prod.fst))
      (g.length + (seed.map Prod.fst).length) [] :=
    hnever _ [] (fun x _ hmem => absurd hmem (List.not_mem_nil x)) x0 hx0
  have hfalse : ((closureOf g (seed.map Prod.fst)).all
      (fun m => (resolveIter g (closureOf g (seed.map Prod.fst))
        (g.length + (seed.map Prod.fst).length) []).contains m)) = false := by
    cases hb : ((closureOf g (seed.map Prod.fst)).all
        (fun m => (resolveIter g (closureOf g (seed.map Prod.fst))
          (g.length + (seed.map Prod.fst).length) []).contains m))
    · rfl
    · exfalso
      rw [List.all_eq_true] at hb
      exact hx0R (contains_iff_mem.mp (hb x0 hx0M))
  refine ⟨⟨(closureOf g (seed.map Prod.fst)).filter
      (fun m => !(resolveIter g (closureOf g (seed.map Prod.fst))
        (g.length + (seed.map Prod.fst).length) []).contains m)⟩, ?_, ?_⟩
  · simp only [computeClosure]
    rw [hfalse]
    simp only [Bool.false_eq_true, if_false]
  · intro x hx
    refine List.mem_filter.mpr ⟨(hc x hx).1, ?_⟩
    have hxR := hnever (g.length + (seed.map Prod.fst).length) []
      (fun x _ hmem => absurd hmem (List.not_mem_nil x)) x hx
    cases hcr : (resolveIter g (closureOf g (seed.map Prod.fst))
        (g.length + (seed.map Prod.fst).length) []).contains x
    · rfl
    · exact absurd (contains_iff_mem.mp hcr) hxR

/-- C6 witness: the spec's two-package mutual dependency with a non-empty
seed fails, naming both packages. -/
theorem C6_cycle_in_closure_fails_witness :
    ∃ e, computeClosure
        [(⟨"a".data, ⟨1, 0, 0⟩, ["b".data]⟩ : CNode), ⟨"b".data, ⟨1, 0, 0⟩, ["a".data]⟩]
        [("a".data, ⟨2, 0, 0⟩)] patchBump = Except.error e ∧
      ∀ x ∈ (["a".data, "b".data] : List Str), x ∈ e.unresolved :=
  C6_cycle_in_closure_fails
    [⟨"a".data, ⟨1, 0, 0⟩, ["b".data]⟩, ⟨"b".data, ⟨1, 0, 0⟩, ["a".data]⟩]
    [("a".data, ⟨2, 0, 0⟩)] patchBump ["a".data, "b".data] (by unfold StuckSet; decide)

/-- C6 counterexample: a graph containing a dependency cycle (c and d depend
on each other) with a non-empty seed does NOT fail when the cycle is
disjoint from the cascade closure — the computation succeeds with the seed
alone, contradicting the claim that every cyclic graph with a non-empty seed
fails. -/
theorem C6_counterexample :
    computeClosure
        [(⟨"a".data, ⟨1, 0, 0⟩, []⟩ : CNode), ⟨"c".data, ⟨1, 0, 0⟩, ["d".data]⟩,
          ⟨"d".data, ⟨1, 0, 0⟩, ["c".data]⟩]
        [("a".data, ⟨2, 0, 0⟩)] patchBump
      = Except.ok [("a".data, ⟨2, 0, 0⟩)] ∧
    "d".data ∈ nodeDeps
        [(⟨"a".data, ⟨1, 0, 0⟩, []⟩ : CNode), ⟨"c".data, ⟨1, 0, 0⟩, ["d".data]⟩,
          ⟨"d".data, ⟨1, 0, 0⟩, ["c".data]⟩] "c".data ∧
    "c".data ∈ nodeDeps
        [(⟨"a".data, ⟨1, 0, 0⟩, []⟩ : CNode), ⟨"c".data, ⟨1, 0, 0⟩, ["d".data]⟩,
          ⟨"d".data, ⟨1, 0, 0⟩, ["c".data]⟩] "d".data ∧
    ([("a".data, (⟨2, 0, 0⟩ : VersionT))] : List (Str × VersionT)) ≠ [] :=
  ⟨rfl, by decide, by decide, by decide⟩

end RPUv
